import Mathlib

/-!
Shallow embedding of `check_mobileprovisions.py`, a batch auditor for Apple
provisioning profiles.  The script walks a directory tree, decodes each
`.mobileprovision` file with the external `security cms -D` subprocess,
extracts `embedded.mobileprovision` members from `.ipa` zip archives into a
scratch directory, and prints one verdict line per profile comparing its
`ExpirationDate` against a current-time value captured once at process start.

The embedding models:
  * the filesystem as an association list from path strings to file data;
  * the `security` subprocess as an oracle (`DecodeEnv`) giving, per input
    path, one of: success (output file written, with its parsed content),
    a non-zero exit (`CalledProcessError`, optionally having written a
    partial output file), or an invocation failure that raises an exception
    other than `CalledProcessError` (e.g. `FileNotFoundError`);
  * zip archives as an oracle (`ZipEnv`) giving, per archive path, either an
    open failure or a member list, where each member records whether
    `ZipFile.extract` raises on it;
  * Python exceptions as the `Except String` monad: a `.error` value is an
    exception propagating out of the modelled code;
  * printed lines as an accumulated `List String`.
-/

/-- Values stored in a parsed property list.  `date` carries the expiration
instant as an integer timestamp; the other constructors model non-date plist
values that `plistlib` can produce. -/
inductive PlistVal where
  | date (t : Int)
  | int (n : Int)
  | str (s : String)
  | boolean (b : Bool)
deriving DecidableEq

abbrev Plist := List (String × PlistVal)

/-- `dict.get key` on a parsed plist: the first binding for the key, if any. -/
def plistGet (d : Plist) (k : String) : Option PlistVal :=
  (d.find? (fun e => e.1 == k)).map (fun e => e.2)

/-- Python truthiness of a plist value (`if not expiration_date:`).
A `datetime` is always truthy; numbers, strings and booleans follow Python. -/
def pyTruthy : PlistVal → Bool
  | .date _ => true
  | .int n => n != 0
  | .str s => s != ""
  | .boolean b => b

/-- Content of a decoded plist file on disk: either it parses to a document,
or `plistlib.load` raises the recorded error. -/
inductive PlistFile where
  | good (doc : Plist)
  | bad (err : String)
deriving DecidableEq

/-- Data stored at a path in the modelled filesystem. -/
inductive FileData where
  | plist (c : PlistFile)
  | profile
deriving DecidableEq

/-- The filesystem: an association list from paths to file data.  Earlier
entries shadow later ones; `fsSet` removes stale entries so each present path
has exactly one entry. -/
abbrev FS := List (String × FileData)

def fsExists (fs : FS) (p : String) : Bool :=
  fs.any (fun e => e.1 == p)

def fsGet (fs : FS) (p : String) : Option FileData :=
  (fs.find? (fun e => e.1 == p)).map (fun e => e.2)

/-- Write (create or overwrite) the file at `p`. -/
def fsSet (fs : FS) (p : String) (d : FileData) : FS :=
  (p, d) :: fs.filter (fun e => !(e.1 == p))

/-- `os.remove p` (no-op when absent; callers guard with `fsExists`). -/
def fsRemove (fs : FS) (p : String) : FS :=
  fs.filter (fun e => !(e.1 == p))

/-- Boolean list-prefix test (`lPre t s` : `t` is a prefix of `s`). -/
def lPre : List Char → List Char → Bool
  | [], _ => true
  | _ :: _, [] => false
  | a :: as, b :: bs => a == b && lPre as bs

/-- Python `s.endswith(t)`. -/
def strEndsWith (s t : String) : Bool :=
  lPre t.data.reverse s.data.reverse

/-- `shutil.rmtree d`: delete every file strictly below directory `d`. -/
def fsRemoveTree (fs : FS) (d : String) : FS :=
  fs.filter (fun e => !(lPre (d ++ "/").data e.1.data))

/-- ASCII digit characters, modelling Python's decimal rendering of `int`. -/
def decDigit : Nat → Char
  | 0 => '0'
  | 1 => '1'
  | 2 => '2'
  | 3 => '3'
  | 4 => '4'
  | 5 => '5'
  | 6 => '6'
  | 7 => '7'
  | 8 => '8'
  | _ => '9'

/-- Fuelled decimal rendering (structural, so that it computes by `rfl`);
`natToDecimal` supplies enough fuel and satisfies the expected equation. -/
def ntdFuel : Nat → Nat → List Char
  | _, 0 => []
  | n, fuel + 1 =>
      if n < 10 then [decDigit n] else ntdFuel (n / 10) fuel ++ [decDigit (n % 10)]

/-- Decimal digit string of a natural number, as Python's `str(int)`. -/
def natToDecimal (n : Nat) : List Char := ntdFuel n (n + 1)

def natStr (n : Nat) : String := ⟨natToDecimal n⟩

/-- Decimal rendering of an integer instant (abstraction of Python's
`str(datetime)` for the purposes of the verdict line). -/
def intStr (t : Int) : String :=
  if t < 0 then "-" ++ natStr t.natAbs else natStr t.natAbs

/-- `os.path.basename`: the portion of a path after the last slash. -/
def basenameL (l : List Char) : List Char :=
  (l.reverse.takeWhile (fun c => c != '/')).reverse

def basename (s : String) : String := ⟨basenameL s.data⟩

/-- `os.path.join` for the shapes the script uses. -/
def pathJoin (a b : String) : String := a ++ "/" ++ b

/-- `TEMP_DIR = "temp_extracted"` from the script. -/
def TEMP_DIR : String := "temp_extracted"

/-- The member-name convention matched inside archives. -/
def mpSuffix : String := "embedded.mobileprovision"

/-- Behaviour of one invocation of `security cms -D -i file -o out`:
either exit 0 having written the output file (whose content is `c`), or a
non-zero exit (`CalledProcessError`, with captured stderr and a flag telling
whether a partial output file got written), or an exception raised by the
invocation itself, e.g. `FileNotFoundError` when the tool is missing. -/
inductive DecodeOutcome where
  | success (c : PlistFile)
  | calledProcessError (stderr : String) (wrote : Bool)
  | invocationError (msg : String)

/-- Per-input-path behaviour of the external decode subprocess. -/
abbrev DecodeEnv := String → DecodeOutcome

/-- One member of a zip archive: its name, and whether `ZipFile.extract`
raises on it (with the exception text). -/
structure ZMember where
  name : String
  extractRaises : Option String
deriving DecidableEq

/-- Opening an archive: failure (unreadable / not a valid container), or the
ordered member list. -/
inductive ZipOutcome where
  | openError (msg : String)
  | archive (members : List ZMember)

abbrev ZipEnv := String → ZipOutcome

/-- `decode_mobileprovision(file_path, output_path)`: returns whether the
decode succeeded, the lines printed, and the updated filesystem; a
non-`CalledProcessError` exception from the invocation escapes uncaught. -/
def decode_mobileprovision (denv : DecodeEnv) (fs : FS)
    (file_path output_path : String) : Except String (Bool × List String × FS) :=
  match denv file_path with
  | .success c => .ok (true, [], fsSet fs output_path (.plist c))
  | .calledProcessError stderr wrote =>
      .ok (false, ["Error decoding " ++ file_path ++ ": " ++ stderr],
           if wrote then fsSet fs output_path (.plist (.bad stderr)) else fs)
  | .invocationError msg => .error msg

/-- `check_expiry(file_path)`: decode the profile to a sibling `.plist`
file, parse it, look up `ExpirationDate`, compare with `now`, print one
verdict line; the `finally` block removes the sibling file, but only the
parse phase is inside the `try`/`finally`. -/
def check_expiry (denv : DecodeEnv) (now : Int) (fs : FS) (file_path : String) :
    Except String (List String × FS) :=
  let temp_plist := file_path ++ ".plist"
  match decode_mobileprovision denv fs file_path temp_plist with
  | .error msg => .error msg
  | .ok (false, out, fs1) => .ok (out ++ [file_path ++ ": Failed to decode"], fs1)
  | .ok (true, out, fs1) =>
      let body :=
        match fsGet fs1 temp_plist with
        | some (.plist (.good doc)) =>
            match plistGet doc "ExpirationDate" with
            | none => [file_path ++ ": No expiration date found"]
            | some v =>
                if pyTruthy v then
                  match v with
                  | .date t =>
                      [file_path ++ ": " ++ (if t < now then "EXPIRED" else "VALID") ++
                        " (Expires: " ++ intStr t ++ ")"]
                  | _ =>
                      [file_path ++ ": Error processing - TypeError: unorderable types"]
                else [file_path ++ ": No expiration date found"]
        | some (.plist (.bad e)) => [file_path ++ ": Error processing - " ++ e]
        | some .profile => [file_path ++ ": Error processing - invalid plist"]
        | none => [file_path ++ ": Error processing - file not found"]
      let fs2 := if fsExists fs1 temp_plist then fsRemove fs1 temp_plist else fs1
      .ok (out ++ body, fs2)

/-- The extraction loop of `extract_mobileprovision_from_ipa`: for each
member whose name ends with the convention, `extract` it below the scratch
directory and `shutil.move` it to a disambiguated path whose index is the
number of paths collected so far.  An exception from `extract` carries the
filesystem state at that point. -/
def extractLoopE (fs : FS) : List ZMember → List String →
    Except (String × FS) (List String × FS)
  | [], acc => .ok (acc, fs)
  | m :: rest, acc =>
      if strEndsWith m.name mpSuffix then
        match m.extractRaises with
        | some msg => .error (msg, fs)
        | none =>
            let tmp := pathJoin TEMP_DIR m.name
            let extract_path := pathJoin TEMP_DIR (basename m.name ++ "_" ++ natStr acc.length)
            let fs1 := fsSet fs tmp .profile
            let fs2 := fsSet (fsRemove fs1 tmp) extract_path .profile
            extractLoopE fs2 rest (acc ++ [extract_path])
      else extractLoopE fs rest acc

/-- `extract_mobileprovision_from_ipa(ipa_path)`: returns the printed lines,
the updated filesystem, and the list of extracted paths.  Every failure is
caught by the surrounding `except Exception`, which prints a line and
returns the empty list. -/
def extract_mobileprovision_from_ipa (zenv : ZipEnv) (fs : FS) (ipa_path : String) :
    List String × FS × List String :=
  match zenv ipa_path with
  | .openError msg => ([ipa_path ++ ": Error extracting - " ++ msg], fs, [])
  | .archive ms =>
      match extractLoopE fs ms [] with
      | .error (msg, fs1) => ([ipa_path ++ ": Error extracting - " ++ msg], fs1, [])
      | .ok (paths, fs1) =>
          if paths.isEmpty then
            ([ipa_path ++ ": No embedded.mobileprovision found"], fs1, [])
          else ([], fs1, paths)

/-- The `for extracted_path in extracted_paths: check_expiry(...)` loop. -/
def checkAll (denv : DecodeEnv) (now : Int) : FS → List String →
    Except String (List String × FS)
  | fs, [] => .ok ([], fs)
  | fs, p :: ps =>
      match check_expiry denv now fs p with
      | .error e => .error e
      | .ok (out, fs1) =>
          match checkAll denv now fs1 ps with
          | .error e => .error e
          | .ok (out2, fs2) => .ok (out ++ out2, fs2)

/-- Dispatch on one walked file, as in `process_directory`'s loop body. -/
def processFile (zenv : ZipEnv) (denv : DecodeEnv) (now : Int) (fs : FS)
    (file_path : String) : Except String (List String × FS) :=
  if strEndsWith file_path ".mobileprovision" then check_expiry denv now fs file_path
  else if strEndsWith file_path ".ipa" then
    let r := extract_mobileprovision_from_ipa zenv fs file_path
    match checkAll denv now r.2.1 r.2.2 with
    | .error e => .error e
    | .ok (out2, fs2) => .ok (r.1 ++ out2, fs2)
  else .ok ([], fs)

/-- `process_directory`: sequentially process the walked file list. -/
def process_directory (zenv : ZipEnv) (denv : DecodeEnv) (now : Int) :
    FS → List String → Except String (List String × FS)
  | fs, [] => .ok ([], fs)
  | fs, f :: rest =>
      match processFile zenv denv now fs f with
      | .error e => .error e
      | .ok (out, fs1) =>
          match process_directory zenv denv now fs1 rest with
          | .error e => .error e
          | .ok (out2, fs2) => .ok (out ++ out2, fs2)

/-- The whole run: `CURRENT_DATE = datetime.now()` samples the clock exactly
once (index 0) at process start; `main` clears the scratch directory,
processes the walked files, and removes the scratch directory again — the
final removal is reached only when no exception propagated. -/
def mainRun (zenv : ZipEnv) (denv : DecodeEnv) (clock : Nat → Int)
    (files : List String) (fs0 : FS) : Except String (List String × FS) :=
  let now := clock 0
  let fs1 := fsRemoveTree fs0 TEMP_DIR
  match process_directory zenv denv now fs1 files with
  | .error e => .error e
  | .ok (out, fs2) => .ok (out, fsRemoveTree fs2 TEMP_DIR)

/-- Index the elements of a list starting at `k` (for stating which
disambiguating index each extracted member receives). -/
def withIdx (k : Nat) : List ZMember → List (Nat × ZMember)
  | [] => []
  | a :: l => (k, a) :: withIdx (k + 1) l

/-- The disambiguated scratch path for member `name` at index `k`. -/
def mkExtractPath (name : String) (k : Nat) : String :=
  pathJoin TEMP_DIR (basename name ++ "_" ++ natStr k)

/-- The paths the extraction loop produces for the matching members of `ms`,
indices starting at `k`. -/
def extractedPaths (k : Nat) (ms : List ZMember) : List String :=
  (withIdx k (ms.filter (fun m => strEndsWith m.name mpSuffix))).map
    (fun p => mkExtractPath p.2.name p.1)

/-! ### Decimal-rendering lemmas -/

theorem ntdFuel_congr : ∀ f1 : Nat, ∀ f2 n : Nat, n < f1 → n < f2 →
    ntdFuel n f1 = ntdFuel n f2 := by
  intro f1
  induction f1 with
  | zero => intro f2 n h1 _; omega
  | succ k ih =>
      intro f2 n h1 h2
      match f2, h2 with
      | j + 1, h2 =>
        by_cases h : n < 10
        · simp [ntdFuel, h]
        · have hd : n / 10 < n := Nat.div_lt_self (by omega) (by omega)
          show (if n < 10 then [decDigit n] else ntdFuel (n / 10) k ++ [decDigit (n % 10)]) =
            (if n < 10 then [decDigit n] else ntdFuel (n / 10) j ++ [decDigit (n % 10)])
          rw [if_neg h, if_neg h, ih j (n / 10) (by omega) (by omega)]

theorem natToDecimal_eq (n : Nat) :
    natToDecimal n =
      if n < 10 then [decDigit n] else natToDecimal (n / 10) ++ [decDigit (n % 10)] := by
  by_cases h : n < 10
  · rw [if_pos h]
    show ntdFuel n (n + 1) = [decDigit n]
    match n with
    | n => exact if_pos h
  · rw [if_neg h]
    have hd : n / 10 < n := Nat.div_lt_self (by omega) (by omega)
    have h1 : ntdFuel n (n + 1) = ntdFuel (n / 10) n ++ [decDigit (n % 10)] := if_neg h
    show ntdFuel n (n + 1) = ntdFuel (n / 10) (n / 10 + 1) ++ [decDigit (n % 10)]
    rw [h1, ntdFuel_congr n (n / 10 + 1) (n / 10) (by omega) (by omega)]

theorem natToDecimal_ne_nil (n : Nat) : natToDecimal n ≠ [] := by
  rw [natToDecimal_eq]
  by_cases h : n < 10
  · rw [if_pos h]; simp
  · rw [if_neg h]; simp

theorem decDigit_inj_lt : ∀ a < 10, ∀ b < 10, decDigit a = decDigit b → a = b := by decide

theorem decDigit_ne_underscore : ∀ a < 10, decDigit a ≠ '_' := by decide

theorem decDigit_ne_n : ∀ a < 10, decDigit a ≠ 'n' := by decide

theorem natToDecimal_mem (n : Nat) : ∀ c ∈ natToDecimal n, ∃ k, k < 10 ∧ c = decDigit k := by
  induction n using Nat.strong_induction_on with
  | _ n ih =>
      rw [natToDecimal_eq]
      by_cases h : n < 10
      · rw [if_pos h]
        intro c hc
        rw [List.mem_singleton] at hc
        exact ⟨n, h, hc⟩
      · have hd : n / 10 < n := Nat.div_lt_self (by omega) (by omega)
        rw [if_neg h]
        intro c hc
        rcases List.mem_append.mp hc with hc | hc
        · exact ih (n / 10) hd c hc
        · rw [List.mem_singleton] at hc
          exact ⟨n % 10, by omega, hc⟩

theorem underscore_not_mem_natToDecimal (n : Nat) : '_' ∉ natToDecimal n := by
  intro hmem
  obtain ⟨k, hk, heq⟩ := natToDecimal_mem n '_' hmem
  exact decDigit_ne_underscore k hk heq.symm

theorem natToDecimal_inj : ∀ a b : Nat, natToDecimal a = natToDecimal b → a = b := by
  intro a
  induction a using Nat.strong_induction_on with
  | _ a ih =>
      intro b h
      have ea := natToDecimal_eq a
      have eb := natToDecimal_eq b
      by_cases ha : a < 10 <;> by_cases hb : b < 10
      · rw [if_pos ha] at ea
        rw [if_pos hb] at eb
        rw [ea, eb] at h
        injection h with h1 _
        exact decDigit_inj_lt a ha b hb h1
      · rw [if_pos ha] at ea
        rw [if_neg hb] at eb
        rw [ea, eb] at h
        have hlen := congrArg List.length h
        simp only [List.length_append, List.length_singleton] at hlen
        have h0 : (natToDecimal (b / 10)).length = 0 := by omega
        exact absurd (List.length_eq_zero.mp h0) (natToDecimal_ne_nil (b / 10))
      · rw [if_neg ha] at ea
        rw [if_pos hb] at eb
        rw [ea, eb] at h
        have hlen := congrArg List.length h
        simp only [List.length_append, List.length_singleton] at hlen
        have h0 : (natToDecimal (a / 10)).length = 0 := by omega
        exact absurd (List.length_eq_zero.mp h0) (natToDecimal_ne_nil (a / 10))
      · rw [if_neg ha] at ea
        rw [if_neg hb] at eb
        rw [ea, eb] at h
        have hrev := congrArg List.reverse h
        have hcons : decDigit (a % 10) :: (natToDecimal (a / 10)).reverse =
            decDigit (b % 10) :: (natToDecimal (b / 10)).reverse := by
          simpa using hrev
        injection hcons with h1 h2
        have h10 : a % 10 = b % 10 :=
          decDigit_inj_lt (a % 10) (by omega) (b % 10) (by omega) h1
        have hda : a / 10 < a := Nat.div_lt_self (by omega) (by omega)
        have hdiv : a / 10 = b / 10 :=
          ih (a / 10) hda (b / 10) (List.reverse_inj.mp h2)
        omega

theorem natToDecimal_reverse_cons (n : Nat) :
    ∃ k t, k < 10 ∧ (natToDecimal n).reverse = decDigit k :: t := by
  rw [natToDecimal_eq]
  by_cases h : n < 10
  · exact ⟨n, [], h, by rw [if_pos h]; simp⟩
  · exact ⟨n % 10, (natToDecimal (n / 10)).reverse, by omega, by rw [if_neg h]; simp⟩

/-! ### Separator-splitting and extraction-path lemmas -/

theorem sep_split : ∀ (u1 : List Char) (u2 v1 v2 : List Char), '_' ∉ u1 → '_' ∉ u2 →
    u1 ++ '_' :: v1 = u2 ++ '_' :: v2 → u1 = u2 ∧ v1 = v2 := by
  intro u1
  induction u1 with
  | nil =>
      intro u2 v1 v2 _ hu2 h
      match u2 with
      | [] =>
          injection h with _ h2
          exact ⟨rfl, h2⟩
      | c :: u2t =>
          injection h with h1 _
          exact absurd (by rw [← h1]; exact List.mem_cons_self _ _) hu2
  | cons a u1t ih =>
      intro u2 v1 v2 hu1 hu2 h
      match u2 with
      | [] =>
          injection h with h1 _
          exact absurd (by rw [h1]; exact List.mem_cons_self _ _) hu1
      | c :: u2t =>
          injection h with h1 h2
          have hrec := ih u2t v1 v2 (fun hm => hu1 (List.mem_cons_of_mem _ hm))
            (fun hm => hu2 (List.mem_cons_of_mem _ hm)) h2
          exact ⟨by rw [h1, hrec.1], hrec.2⟩

theorem string_mk_data (l : List Char) : (⟨l⟩ : String).data = l := rfl

theorem mkExtractPath_data (name : String) (k : Nat) :
    (mkExtractPath name k).data =
      ("temp_extracted/".data ++ (basename name).data) ++ '_' :: natToDecimal k := by
  show (TEMP_DIR ++ "/" ++ (basename name ++ "_" ++ natStr k)).data = _
  rw [String.data_append, String.data_append, String.data_append, String.data_append]
  show ("temp_extracted".data ++ "/".data) ++ ((basename name).data ++ "_".data ++ natToDecimal k) = _
  simp [List.append_assoc]

theorem mkExtractPath_inj_idx (n1 n2 : String) (i j : Nat)
    (h : mkExtractPath n1 i = mkExtractPath n2 j) : i = j := by
  have hd := congrArg String.data h
  rw [mkExtractPath_data, mkExtractPath_data] at hd
  have hrev := congrArg List.reverse hd
  simp only [List.reverse_append, List.reverse_cons] at hrev
  rw [List.append_assoc, List.append_assoc] at hrev
  have hsplit := sep_split (natToDecimal i).reverse (natToDecimal j).reverse _ _
    (fun hm => underscore_not_mem_natToDecimal i (List.mem_reverse.mp hm))
    (fun hm => underscore_not_mem_natToDecimal j (List.mem_reverse.mp hm))
    (by simpa using hrev)
  exact natToDecimal_inj i j (List.reverse_inj.mp hsplit.1)

/-- Paths produced by the extraction loop end in a decimal digit. -/
def lastIsDigit (p : String) : Prop :=
  ∃ k t, k < 10 ∧ p.data.reverse = decDigit k :: t

theorem mkExtractPath_lastIsDigit (name : String) (k : Nat) :
    lastIsDigit (mkExtractPath name k) := by
  obtain ⟨d, t, hd, ht⟩ := natToDecimal_reverse_cons k
  refine ⟨d, t ++ '_' :: (("temp_extracted/".data ++ (basename name).data)).reverse, hd, ?_⟩
  rw [mkExtractPath_data]
  simp only [List.reverse_append, List.reverse_cons, ht]
  simp [List.append_assoc]

theorem lPre_cons_head (a : Char) (ts s : List Char) (h : lPre (a :: ts) s = true) :
    ∃ s', s = a :: s' := by
  match s with
  | [] => exact absurd h (by simp [lPre])
  | b :: bs =>
      have hb : (a == b && lPre ts bs) = true := h
      rw [Bool.and_eq_true] at hb
      have hab : a = b := beq_iff_eq.mp hb.1
      exact ⟨bs, by rw [hab]⟩

theorem matching_rev_head (name : String) (h : strEndsWith name mpSuffix = true) :
    ∃ rest, name.data.reverse = 'n' :: rest := by
  unfold strEndsWith at h
  have hm : mpSuffix.data.reverse = 'n' :: "oisivorpelibom.deddebme".data := by decide
  rw [hm] at h
  exact lPre_cons_head 'n' _ _ h

theorem lastIsDigit_ne_tmp (p : String) (hp : lastIsDigit p) (name : String)
    (hn : strEndsWith name mpSuffix = true) : p ≠ pathJoin TEMP_DIR name := by
  intro he
  obtain ⟨k, t, hk, ht⟩ := hp
  obtain ⟨rest, hrest⟩ := matching_rev_head name hn
  have h1 : (p.data.reverse).head? = some (decDigit k) := by rw [ht]; rfl
  have h2 : ((pathJoin TEMP_DIR name).data.reverse) = 'n' :: (rest ++ ((TEMP_DIR ++ "/").data).reverse) := by
    show (((TEMP_DIR ++ "/") ++ name).data).reverse = _
    rw [String.data_append, List.reverse_append, hrest]
    rfl
  rw [he, h2] at h1
  rw [List.head?_cons] at h1
  injection h1 with hh
  exact decDigit_ne_n k hk hh.symm

/-! ### Filesystem lemmas -/

theorem fsExists_fsSet_self (fs : FS) (p : String) (d : FileData) :
    fsExists (fsSet fs p d) p = true := by
  simp [fsExists, fsSet]

theorem fsExists_fsSet (fs : FS) (p q : String) (d : FileData)
    (h : fsExists fs q = true) : fsExists (fsSet fs p d) q = true := by
  by_cases hpq : p = q
  · rw [hpq]; exact fsExists_fsSet_self fs q d
  · simp only [fsExists, List.any_eq_true] at h
    obtain ⟨e, he, heq⟩ := h
    have heq' : e.1 = q := beq_iff_eq.mp heq
    simp only [fsExists, fsSet, List.any_eq_true]
    refine ⟨e, List.mem_cons_of_mem _ (List.mem_filter.mpr ⟨he, ?_⟩), heq⟩
    simp [heq']
    exact fun habs => hpq habs.symm

theorem fsExists_fsRemove_self (fs : FS) (p : String) :
    fsExists (fsRemove fs p) p = false := by
  simp only [fsExists, fsRemove]
  rw [Bool.eq_false_iff]
  intro habs
  obtain ⟨e, he, heq⟩ := List.any_eq_true.mp habs
  have := (List.mem_filter.mp he).2
  rw [heq] at this
  simp at this

theorem fsExists_fsRemove_of_ne (fs : FS) (p q : String) (hne : q ≠ p)
    (h : fsExists fs q = true) : fsExists (fsRemove fs p) q = true := by
  simp only [fsExists, List.any_eq_true] at h
  obtain ⟨e, he, heq⟩ := h
  have heq' : e.1 = q := beq_iff_eq.mp heq
  simp only [fsExists, fsRemove, List.any_eq_true]
  refine ⟨e, List.mem_filter.mpr ⟨he, ?_⟩, heq⟩
  simp [heq']
  exact hne

theorem fsGet_fsSet_self (fs : FS) (p : String) (d : FileData) :
    fsGet (fsSet fs p d) p = some d := by
  unfold fsGet fsSet
  rw [List.find?_cons_of_pos _ (by simp)]
  rfl

theorem fsExists_cleanup (fs : FS) (p : String) :
    fsExists (if fsExists fs p then fsRemove fs p else fs) p = false := by
  by_cases h : fsExists fs p = true
  · rw [if_pos h]; exact fsExists_fsRemove_self fs p
  · rw [if_neg (by simp [h]) ]
    exact Bool.not_eq_true _ ▸ h

/-- Number of filesystem entries whose path is `p`. -/
def fsCount (fs : FS) (p : String) : Nat :=
  (fs.filter (fun e => e.1 == p)).length

theorem fsCount_fsSet_self (fs : FS) (p : String) (d : FileData) :
    fsCount (fsSet fs p d) p = 1 := by
  simp only [fsCount, fsSet]
  rw [List.filter_cons_of_pos (by simp)]
  simp [List.filter_filter]

theorem fsExists_fsRemoveTree (fs : FS) (d : String) (p : String)
    (h : lPre (d ++ "/").data p.data = true) :
    fsExists (fsRemoveTree fs d) p = false := by
  simp only [fsExists, fsRemoveTree]
  rw [Bool.eq_false_iff]
  intro habs
  obtain ⟨e, he, heq⟩ := List.any_eq_true.mp habs
  have he2 := (List.mem_filter.mp he).2
  have heq' : e.1 = p := beq_iff_eq.mp heq
  rw [heq', h] at he2
  simp at he2

/-! ### Extraction-loop lemmas -/

theorem withIdx_fst_ge : ∀ (l : List ZMember) (k : Nat) (p : Nat × ZMember),
    p ∈ withIdx k l → k ≤ p.1 := by
  intro l
  induction l with
  | nil => intro k p hp; simp [withIdx] at hp
  | cons a t ih =>
      intro k p hp
      rcases List.mem_cons.mp hp with h | h
      · rw [h]
      · exact Nat.le_of_succ_le (ih (k + 1) p h)

theorem withIdx_length : ∀ (l : List ZMember) (k : Nat), (withIdx k l).length = l.length := by
  intro l
  induction l with
  | nil => intro k; rfl
  | cons a t ih => intro k; simp [withIdx, ih]

theorem extractedPaths_cons_match (k : Nat) (m : ZMember) (ms : List ZMember)
    (hm : strEndsWith m.name mpSuffix = true) :
    extractedPaths k (m :: ms) = mkExtractPath m.name k :: extractedPaths (k + 1) ms := by
  unfold extractedPaths
  rw [List.filter_cons]
  simp only [hm, if_true]
  rfl

theorem extractedPaths_cons_skip (k : Nat) (m : ZMember) (ms : List ZMember)
    (hm : strEndsWith m.name mpSuffix = false) :
    extractedPaths k (m :: ms) = extractedPaths k ms := by
  unfold extractedPaths
  rw [List.filter_cons]
  simp only [hm]
  rw [if_neg (by simp)]

theorem withIdx_map_nodup : ∀ (l : List ZMember) (k : Nat),
    ((withIdx k l).map (fun p => mkExtractPath p.2.name p.1)).Nodup := by
  intro l
  induction l with
  | nil => intro k; simp [withIdx]
  | cons a t ih =>
      intro k
      simp only [withIdx, List.map_cons]
      rw [List.nodup_cons]
      constructor
      · intro hmem
        obtain ⟨p, hp, he⟩ := List.mem_map.mp hmem
        have h1 : p.1 = k := mkExtractPath_inj_idx _ _ _ _ he
        have h2 : k + 1 ≤ p.1 := withIdx_fst_ge t (k + 1) p hp
        omega
      · exact ih (k + 1)

theorem extractedPaths_nodup (k : Nat) (ms : List ZMember) :
    (extractedPaths k ms).Nodup := withIdx_map_nodup _ _

theorem extractedPaths_length (k : Nat) (ms : List ZMember) :
    (extractedPaths k ms).length =
      (ms.filter (fun m => strEndsWith m.name mpSuffix)).length := by
  simp [extractedPaths, withIdx_length]

theorem extractLoopE_no_match : ∀ (ms : List ZMember),
    (∀ m ∈ ms, strEndsWith m.name mpSuffix = false) →
    ∀ (fs : FS) (acc : List String), extractLoopE fs ms acc = .ok (acc, fs) := by
  intro ms
  induction ms with
  | nil => intro _ fs acc; rfl
  | cons m t ih =>
      intro h fs acc
      have hm := h m (List.mem_cons_self _ _)
      have hstep : extractLoopE fs (m :: t) acc = extractLoopE fs t acc := by
        simp [extractLoopE, hm]
      rw [hstep]
      exact ih (fun x hx => h x (List.mem_cons_of_mem _ hx)) fs acc

theorem extractLoopE_append (l1 l2 : List ZMember) : ∀ (fs : FS) (acc : List String),
    extractLoopE fs (l1 ++ l2) acc =
      match extractLoopE fs l1 acc with
      | .error e => .error e
      | .ok (acc1, fs1) => extractLoopE fs1 l2 acc1 := by
  induction l1 with
  | nil => intro fs acc; rfl
  | cons m t ih =>
      intro fs acc
      by_cases hm : strEndsWith m.name mpSuffix = true
      · cases hr : m.extractRaises with
        | some msg => simp [extractLoopE, hm, hr]
        | none =>
            simp only [List.cons_append]
            have h1 : extractLoopE fs (m :: (t ++ l2)) acc =
                extractLoopE (fsSet (fsRemove (fsSet fs (pathJoin TEMP_DIR m.name) .profile)
                  (pathJoin TEMP_DIR m.name)) (mkExtractPath m.name acc.length) .profile)
                  (t ++ l2) (acc ++ [mkExtractPath m.name acc.length]) := by
              simp [extractLoopE, hm, hr, mkExtractPath]
            have h2 : extractLoopE fs (m :: t) acc =
                extractLoopE (fsSet (fsRemove (fsSet fs (pathJoin TEMP_DIR m.name) .profile)
                  (pathJoin TEMP_DIR m.name)) (mkExtractPath m.name acc.length) .profile)
                  t (acc ++ [mkExtractPath m.name acc.length]) := by
              simp [extractLoopE, hm, hr, mkExtractPath]
            rw [h1, h2, ih]
      · have h1 : extractLoopE fs ((m :: t) ++ l2) acc = extractLoopE fs (t ++ l2) acc := by
          simp [extractLoopE, hm]
        have h2 : extractLoopE fs (m :: t) acc = extractLoopE fs t acc := by
          simp [extractLoopE, hm]
        rw [h1, h2, ih]

theorem extractLoopE_strong : ∀ (ms : List ZMember),
    (∀ m ∈ ms, strEndsWith m.name mpSuffix = true → m.extractRaises = none) →
    ∀ (fs : FS) (acc : List String), ∃ fs',
      extractLoopE fs ms acc = .ok (acc ++ extractedPaths acc.length ms, fs') ∧
      (∀ p, lastIsDigit p → fsExists fs p = true → fsExists fs' p = true) ∧
      (∀ p ∈ extractedPaths acc.length ms, fsExists fs' p = true) := by
  intro ms
  induction ms with
  | nil =>
      intro _ fs acc
      refine ⟨fs, by simp [extractLoopE, extractedPaths, withIdx], fun p _ h => h, ?_⟩
      intro p hp
      simp [extractedPaths, withIdx] at hp
  | cons m rest ih =>
      intro hok fs acc
      by_cases hm : strEndsWith m.name mpSuffix = true
      · have hr : m.extractRaises = none := hok m (List.mem_cons_self _ _) hm
        have hstep : extractLoopE fs (m :: rest) acc =
            extractLoopE (fsSet (fsRemove (fsSet fs (pathJoin TEMP_DIR m.name) .profile)
              (pathJoin TEMP_DIR m.name)) (mkExtractPath m.name acc.length) .profile)
              rest (acc ++ [mkExtractPath m.name acc.length]) := by
          simp [extractLoopE, hm, hr, mkExtractPath]
        obtain ⟨fs', heq, hpres, hnew⟩ :=
          ih (fun x hx h => hok x (List.mem_cons_of_mem _ hx) h)
            (fsSet (fsRemove (fsSet fs (pathJoin TEMP_DIR m.name) .profile)
              (pathJoin TEMP_DIR m.name)) (mkExtractPath m.name acc.length) .profile)
            (acc ++ [mkExtractPath m.name acc.length])
      
        have hlen : (acc ++ [mkExtractPath m.name acc.length]).length = acc.length + 1 := by
          simp
        refine ⟨fs', ?_, ?_, ?_⟩
        · rw [hstep, heq, extractedPaths_cons_match acc.length m rest hm, hlen]
          simp
        · intro p hp hfs
          apply hpres p hp
          have hne : p ≠ pathJoin TEMP_DIR m.name := lastIsDigit_ne_tmp p hp m.name hm
          exact fsExists_fsSet _ _ _ _
            (fsExists_fsRemove_of_ne _ _ _ hne (fsExists_fsSet _ _ _ _ hfs))
        · intro p hpmem
          rw [extractedPaths_cons_match acc.length m rest hm] at hpmem
          rcases List.mem_cons.mp hpmem with hpe | hpm
          · rw [hpe]
            exact hpres (mkExtractPath m.name acc.length) (mkExtractPath_lastIsDigit _ _)
              (fsExists_fsSet_self _ _ _)
          · apply hnew
            rw [hlen]
            exact hpm
      · have hmf : strEndsWith m.name mpSuffix = false := by
          rw [Bool.eq_false_iff]; exact hm
        have hstep : extractLoopE fs (m :: rest) acc = extractLoopE fs rest acc := by
          simp [extractLoopE, hmf]
        obtain ⟨fs', heq, hpres, hnew⟩ :=
          ih (fun x hx h => hok x (List.mem_cons_of_mem _ hx) h) fs acc
        refine ⟨fs', ?_, hpres, ?_⟩
        · rw [hstep, heq, extractedPaths_cons_skip acc.length m rest hmf]
        · rw [extractedPaths_cons_skip acc.length m rest hmf]
          exact hnew

/-! ### Claim theorems -/

/-- C1 (counterexample): the claim fails as stated.  A successfully decoded
document that does contain the `ExpirationDate` key, but maps it to the
plist integer `0`, is reported as `No expiration date found` (the code tests
Python truthiness, `if not expiration_date:`, not key presence), not as
`VALID` or `EXPIRED`. -/
theorem spec_c1_counterexample :
    plistGet [("ExpirationDate", PlistVal.int 0)] "ExpirationDate" = some (PlistVal.int 0) ∧
    check_expiry (fun _ => DecodeOutcome.success (.good [("ExpirationDate", PlistVal.int 0)]))
      100 [] "a.mobileprovision"
      = .ok (["a.mobileprovision: No expiration date found"], []) := ⟨rfl, rfl⟩

/-- C1 (amended): for every successfully decoded profile whose document maps
the `ExpirationDate` key to a date value, `check_expiry` reports `EXPIRED`
iff the expiration instant is strictly earlier than the captured current
instant and `VALID` otherwise, printing the file path, the status, and the
expiration instant. -/
theorem spec_c1_theorem (denv : DecodeEnv) (now : Int) (fs : FS) (fp : String)
    (doc : Plist) (t : Int)
    (hdec : denv fp = DecodeOutcome.success (.good doc))
    (hget : plistGet doc "ExpirationDate" = some (.date t)) :
    ∃ fs', check_expiry denv now fs fp =
      .ok ([fp ++ ": " ++ (if t < now then "EXPIRED" else "VALID") ++
            " (Expires: " ++ intStr t ++ ")"], fs') := by
  refine ⟨fsRemove (fsSet fs (fp ++ ".plist") (FileData.plist (PlistFile.good doc)))
    (fp ++ ".plist"), ?_⟩
  simp only [check_expiry, decode_mobileprovision, hdec]
  rw [fsGet_fsSet_self]
  simp [hget, pyTruthy, fsExists_fsSet_self]

/-- C8: for every successfully decoded profile whose parsed document lacks
the `ExpirationDate` key, `check_expiry` prints exactly the
`No expiration date found` verdict for that file and returns without
computing an `EXPIRED`/`VALID` verdict. -/
theorem spec_c8_theorem (denv : DecodeEnv) (now : Int) (fs : FS) (fp : String)
    (doc : Plist)
    (hdec : denv fp = DecodeOutcome.success (.good doc))
    (habs : plistGet doc "ExpirationDate" = none) :
    ∃ fs', check_expiry denv now fs fp =
      .ok ([fp ++ ": No expiration date found"], fs') := by
  refine ⟨fsRemove (fsSet fs (fp ++ ".plist") (FileData.plist (PlistFile.good doc)))
    (fp ++ ".plist"), ?_⟩
  simp only [check_expiry, decode_mobileprovision, hdec]
  rw [fsGet_fsSet_self]
  simp [habs, fsExists_fsSet_self]

/-- Witness for C1: a date value 50 against current instant 100 yields the
EXPIRED verdict line. -/
theorem spec_c1_witness :
    ∃ fs', check_expiry
      (fun _ => DecodeOutcome.success (.good [("ExpirationDate", PlistVal.date 50)]))
      100 [] "a.mobileprovision" =
      .ok (["a.mobileprovision" ++ ": " ++ (if (50 : Int) < 100 then "EXPIRED" else "VALID") ++
            " (Expires: " ++ intStr 50 ++ ")"], fs') :=
  spec_c1_theorem _ 100 [] "a.mobileprovision" [("ExpirationDate", PlistVal.date 50)] 50 rfl rfl

/-- Witness for C8: a decoded document with no `ExpirationDate` key yields
the `No expiration date found` line. -/
theorem spec_c8_witness :
    ∃ fs', check_expiry (fun _ => DecodeOutcome.success (.good [("AppIDName", PlistVal.str "x")]))
      0 [] "b.mobileprovision" =
      .ok (["b.mobileprovision" ++ ": No expiration date found"], fs') :=
  spec_c8_theorem _ 0 [] "b.mobileprovision" [("AppIDName", PlistVal.str "x")] rfl rfl

/-- C2 (counterexample): the claim fails as stated.  If the decode
subprocess invocation raises an exception that is not a non-zero-exit
`CalledProcessError` (here: `FileNotFoundError` because the `security` tool
is missing), nothing catches it: the exception propagates out of
`check_expiry`, out of `process_directory`, and terminates the run. -/
theorem spec_c2_counterexample :
    mainRun (fun _ => ZipOutcome.archive [])
      (fun _ => DecodeOutcome.invocationError "FileNotFoundError: security")
      (fun _ => 0) ["a.mobileprovision"] [] = .error "FileNotFoundError: security" := rfl

/-- C2 (amended): provided the decode subprocess invocation for the file
either succeeds or fails with a non-zero exit status (`CalledProcessError`),
every failure mode in that file's processing is caught and converted to
printed lines, and `check_expiry` returns normally (no exception escapes). -/
theorem spec_c2_theorem (denv : DecodeEnv) (now : Int) (fs : FS) (fp : String)
    (h : ∀ msg, denv fp ≠ DecodeOutcome.invocationError msg) :
    ∃ out fs', check_expiry denv now fs fp = .ok (out, fs') ∧ out ≠ [] := by
  cases hd : denv fp with
  | success c =>
      cases c with
      | good doc =>
          simp only [check_expiry, decode_mobileprovision, hd]
          rw [fsGet_fsSet_self]
          refine ⟨_, _, rfl, ?_⟩
          cases hg : plistGet doc "ExpirationDate" with
          | none => simp [hg]
          | some v =>
              by_cases ht : pyTruthy v = true
              · cases v <;> simp [hg, ht]
              · simp [hg, ht]
      | bad e =>
          simp only [check_expiry, decode_mobileprovision, hd]
          rw [fsGet_fsSet_self]
          exact ⟨_, _, rfl, by simp⟩
  | calledProcessError st w =>
      simp only [check_expiry, decode_mobileprovision, hd]
      exact ⟨_, _, rfl, by simp⟩
  | invocationError msg => exact absurd hd (h msg)

/-- Witness for C2: a non-zero-exit decode failure is caught and produces
printed lines. -/
theorem spec_c2_witness :
    ∃ out fs', check_expiry (fun _ => DecodeOutcome.calledProcessError "x" false)
      0 [] "a.mobileprovision" = .ok (out, fs') ∧ out ≠ [] :=
  spec_c2_theorem _ 0 [] "a.mobileprovision"
    (by intro msg hmsg; exact DecodeOutcome.noConfusion hmsg)

/-- C3 (counterexample): the claim fails as stated.  When the decode
subprocess exits non-zero after writing a partial output file, `check_expiry`
returns via the early `return` at `Failed to decode`, which is outside the
`try`/`finally`: the decoded sibling document is still on disk afterwards. -/
theorem spec_c3_counterexample :
    check_expiry (fun _ => DecodeOutcome.calledProcessError "boom" true) 0 []
      "a.mobileprovision"
      = .ok (["Error decoding a.mobileprovision: boom",
              "a.mobileprovision: Failed to decode"],
             [("a.mobileprovision.plist", FileData.plist (.bad "boom"))]) ∧
    fsExists [("a.mobileprovision.plist", FileData.plist (.bad "boom"))]
      "a.mobileprovision.plist" = true := ⟨rfl, rfl⟩

/-- C3 (amended): whenever the decode subprocess succeeds (so that control
enters the `try`/`finally` parse phase), the decoded sibling document is
deleted before `check_expiry` returns, on every exit path of that phase
(verdict, missing field, or processing error); after a decode failure the
early return skips the cleanup, so a partial decoded file can remain. -/
theorem spec_c3_theorem (denv : DecodeEnv) (now : Int) (fs : FS) (fp : String)
    (c : PlistFile) (h : denv fp = DecodeOutcome.success c) :
    ∃ out fs', check_expiry denv now fs fp = .ok (out, fs') ∧
      fsExists fs' (fp ++ ".plist") = false := by
  simp only [check_expiry, decode_mobileprovision, h]
  exact ⟨_, _, rfl, fsExists_cleanup _ _⟩

/-- Witness for C3: a successful decode leaves no sibling `.plist` behind. -/
theorem spec_c3_witness :
    ∃ out fs', check_expiry (fun _ => DecodeOutcome.success (.bad "parse error"))
      0 [] "c.mobileprovision" = .ok (out, fs') ∧
      fsExists fs' ("c.mobileprovision" ++ ".plist") = false :=
  spec_c3_theorem _ 0 [] "c.mobileprovision" (.bad "parse error") rfl

/-- C4 (counterexample): the claim fails as stated.  An `.ipa` with one
embedded profile is extracted and checked; after the check function returns,
the extracted temporary artifact is still present in the scratch directory
(only the decoded `.plist` sibling is cleaned up per file). -/
theorem spec_c4_counterexample :
    processFile (fun _ => ZipOutcome.archive [⟨"Payload/A.app/embedded.mobileprovision", none⟩])
      (fun _ => DecodeOutcome.calledProcessError "err" false) 0 [] "a.ipa"
      = .ok (["Error decoding temp_extracted/embedded.mobileprovision_0: err",
              "temp_extracted/embedded.mobileprovision_0: Failed to decode"],
             [("temp_extracted/embedded.mobileprovision_0", FileData.profile)]) ∧
    fsExists [("temp_extracted/embedded.mobileprovision_0", FileData.profile)]
      "temp_extracted/embedded.mobileprovision_0" = true := ⟨rfl, rfl⟩

/-- C4 (amended): decoded sibling documents are removed before
`check_expiry` returns whenever the decode subprocess succeeded; extracted
profile artifacts are not removed by the check functions, but on a normal
(exception-free) completion of the run, nothing under the scratch directory
survives the final scratch-directory removal. -/
theorem spec_c4_theorem :
    (∀ (denv : DecodeEnv) (now : Int) (fs : FS) (fp : String) (c : PlistFile),
        denv fp = DecodeOutcome.success c →
        ∃ out fs', check_expiry denv now fs fp = .ok (out, fs') ∧
          fsExists fs' (fp ++ ".plist") = false) ∧
    (∀ (zenv : ZipEnv) (denv : DecodeEnv) (clock : Nat → Int) (files : List String)
        (fs0 : FS) (out : List String) (fsEnd : FS),
        mainRun zenv denv clock files fs0 = .ok (out, fsEnd) →
        ∀ p, lPre (TEMP_DIR ++ "/").data p.data = true → fsExists fsEnd p = false) := by
  constructor
  · intro denv now fs fp c h
    simp only [check_expiry, decode_mobileprovision, h]
    exact ⟨_, _, rfl, fsExists_cleanup _ _⟩
  · intro zenv denv clock files fs0 out fsEnd hm p hp
    simp only [mainRun] at hm
    cases hpd : process_directory zenv denv (clock 0) (fsRemoveTree fs0 TEMP_DIR) files with
    | error e => rw [hpd] at hm; exact absurd hm (by simp)
    | ok r =>
        obtain ⟨o2, f2⟩ := r
        rw [hpd] at hm
        simp only [Except.ok.injEq, Prod.mk.injEq] at hm
        rw [← hm.2]
        exact fsExists_fsRemoveTree f2 TEMP_DIR p hp

/-- Witness for C4: both parts at concrete inputs. -/
theorem spec_c4_witness :
    (∃ out fs', check_expiry (fun _ => DecodeOutcome.success (.good [])) 0 []
        "w.mobileprovision" = .ok (out, fs') ∧
        fsExists fs' ("w.mobileprovision" ++ ".plist") = false) ∧
    fsExists [] "temp_extracted/x" = false :=
  ⟨spec_c4_theorem.1 (fun _ => DecodeOutcome.success (.good [])) 0 [] "w.mobileprovision"
      (.good []) rfl,
   spec_c4_theorem.2 (fun _ => ZipOutcome.archive [])
      (fun _ => DecodeOutcome.calledProcessError "e" false) (fun _ => 0) ["a.ipa"] []
      ["a.ipa: No embedded.mobileprovision found"] [] rfl "temp_extracted/x" (by decide)⟩

/-- C5: for every readable archive (all reads succeed) containing N members
whose names end with the embedded-profile convention, the extractor returns
the ordered sequence of exactly N pairwise-distinct extracted paths, each
disambiguated by the incrementing index appended to the member basename. -/
theorem spec_c5_theorem (zenv : ZipEnv) (fs : FS) (ipa : String) (ms : List ZMember)
    (hz : zenv ipa = ZipOutcome.archive ms)
    (hok : ∀ m ∈ ms, strEndsWith m.name mpSuffix = true → m.extractRaises = none) :
    ∃ out fs',
      extract_mobileprovision_from_ipa zenv fs ipa = (out, fs', extractedPaths 0 ms) ∧
      (extractedPaths 0 ms).length =
        (ms.filter (fun m => strEndsWith m.name mpSuffix)).length ∧
      (extractedPaths 0 ms).Nodup := by
  obtain ⟨fs', heq, _, _⟩ := extractLoopE_strong ms hok fs []
  simp only [List.nil_append, List.length_nil] at heq
  by_cases hl : extractedPaths 0 ms = []
  · refine ⟨[ipa ++ ": No embedded.mobileprovision found"], fs', ?_,
      extractedPaths_length 0 ms, extractedPaths_nodup 0 ms⟩
    simp only [extract_mobileprovision_from_ipa, hz]
    rw [heq]
    simp [hl]
  · obtain ⟨a, t, hat⟩ : ∃ a t, extractedPaths 0 ms = a :: t := by
      cases hx : extractedPaths 0 ms with
      | nil => exact absurd hx hl
      | cons a t => exact ⟨a, t, rfl⟩
    refine ⟨[], fs', ?_, extractedPaths_length 0 ms, extractedPaths_nodup 0 ms⟩
    simp only [extract_mobileprovision_from_ipa, hz]
    rw [heq, hat]
    simp

/-- Witness for C5: an archive with two matching members yields the two
indexed, distinct paths. -/
theorem spec_c5_witness :
    ∃ out fs',
      extract_mobileprovision_from_ipa
        (fun _ => ZipOutcome.archive [⟨"Payload/A.app/embedded.mobileprovision", none⟩,
          ⟨"Payload/B.app/embedded.mobileprovision", none⟩]) [] "a.ipa"
        = (out, fs', extractedPaths 0 [⟨"Payload/A.app/embedded.mobileprovision", none⟩,
            ⟨"Payload/B.app/embedded.mobileprovision", none⟩]) ∧
      (extractedPaths 0 [⟨"Payload/A.app/embedded.mobileprovision", none⟩,
          ⟨"Payload/B.app/embedded.mobileprovision", none⟩]).length =
        ([⟨"Payload/A.app/embedded.mobileprovision", none⟩,
          ⟨"Payload/B.app/embedded.mobileprovision", none⟩].filter
            (fun m : ZMember => strEndsWith m.name mpSuffix)).length ∧
      (extractedPaths 0 [⟨"Payload/A.app/embedded.mobileprovision", none⟩,
          ⟨"Payload/B.app/embedded.mobileprovision", none⟩]).Nodup :=
  spec_c5_theorem _ [] "a.ipa" _ rfl (by decide)

/-- C6 (counterexample): the claim fails as stated.  A first archive leaves
its extracted file at `temp_extracted/embedded.mobileprovision_0` (the check
only removes the `.plist` sibling); a later archive containing a member with
the same basename extracts to the same path — the counter reset to 0 — while
that path is still occupied, and the move overwrites it. -/
theorem spec_c6_counterexample :
    processFile (fun _ => ZipOutcome.archive [⟨"Payload/A.app/embedded.mobileprovision", none⟩])
      (fun _ => DecodeOutcome.calledProcessError "err" false) 0 [] "a.ipa"
      = .ok (["Error decoding temp_extracted/embedded.mobileprovision_0: err",
              "temp_extracted/embedded.mobileprovision_0: Failed to decode"],
             [("temp_extracted/embedded.mobileprovision_0", FileData.profile)]) ∧
    fsExists [("temp_extracted/embedded.mobileprovision_0", FileData.profile)]
      "temp_extracted/embedded.mobileprovision_0" = true ∧
    extract_mobileprovision_from_ipa
      (fun _ => ZipOutcome.archive [⟨"Payload/A.app/embedded.mobileprovision", none⟩])
      [("temp_extracted/embedded.mobileprovision_0", FileData.profile)] "b.ipa"
      = ([], [("temp_extracted/embedded.mobileprovision_0", FileData.profile)],
         ["temp_extracted/embedded.mobileprovision_0"]) := ⟨rfl, rfl, rfl⟩

/-- C6 (amended): cross-archive collisions on scratch paths do occur — the
per-archive counter restarts at 0 and earlier extracted files are only
removed at process exit — but the colliding move silently overwrites the
occupied path: extraction still succeeds, returns the colliding path, and
leaves exactly one file there. -/
theorem spec_c6_theorem (zenv : ZipEnv) (fs : FS) (ipa : String) (m : ZMember)
    (hz : zenv ipa = ZipOutcome.archive [m])
    (hm : strEndsWith m.name mpSuffix = true)
    (hr : m.extractRaises = none)
    (hocc : fsExists fs (mkExtractPath m.name 0) = true) :
    ∃ fs', extract_mobileprovision_from_ipa zenv fs ipa
        = ([], fs', [mkExtractPath m.name 0]) ∧
      fsExists fs' (mkExtractPath m.name 0) = true ∧
      fsCount fs' (mkExtractPath m.name 0) = 1 := by
  refine ⟨fsSet (fsRemove (fsSet fs (pathJoin TEMP_DIR m.name) .profile)
      (pathJoin TEMP_DIR m.name)) (mkExtractPath m.name 0) .profile,
    ?_, fsExists_fsSet_self _ _ _, fsCount_fsSet_self _ _ _⟩
  have hloop : extractLoopE fs [m] [] =
      .ok ([mkExtractPath m.name 0],
        fsSet (fsRemove (fsSet fs (pathJoin TEMP_DIR m.name) .profile)
          (pathJoin TEMP_DIR m.name)) (mkExtractPath m.name 0) .profile) := by
    simp [extractLoopE, hm, hr, mkExtractPath]
  simp only [extract_mobileprovision_from_ipa, hz]
  rw [hloop]
  simp

/-- Witness for C6: the overwrite scenario at a concrete occupied path. -/
theorem spec_c6_witness :
    ∃ fs', extract_mobileprovision_from_ipa
        (fun _ => ZipOutcome.archive [⟨"Payload/A.app/embedded.mobileprovision", none⟩])
        [(mkExtractPath "Payload/A.app/embedded.mobileprovision" 0, FileData.profile)] "b.ipa"
        = ([], fs', [mkExtractPath "Payload/A.app/embedded.mobileprovision" 0]) ∧
      fsExists fs' (mkExtractPath "Payload/A.app/embedded.mobileprovision" 0) = true ∧
      fsCount fs' (mkExtractPath "Payload/A.app/embedded.mobileprovision" 0) = 1 :=
  spec_c6_theorem _ _ "b.ipa" ⟨"Payload/A.app/embedded.mobileprovision", none⟩
    rfl (by decide) rfl (by decide)

/-- C7: an unreadable archive is logged (`Error extracting`) and yields an
empty sequence without raising; a readable archive with zero matching
members prints exactly one `No embedded.mobileprovision found` line, yields
an empty sequence, and no expiry check is attempted for that archive. -/
theorem spec_c7_theorem (zenv : ZipEnv) (denv : DecodeEnv) (now : Int) (fs : FS)
    (ipa : String)
    (hipa1 : strEndsWith ipa ".mobileprovision" = false)
    (hipa2 : strEndsWith ipa ".ipa" = true) :
    (∀ msg, zenv ipa = ZipOutcome.openError msg →
       extract_mobileprovision_from_ipa zenv fs ipa
         = ([ipa ++ ": Error extracting - " ++ msg], fs, []) ∧
       processFile zenv denv now fs ipa
         = .ok ([ipa ++ ": Error extracting - " ++ msg], fs)) ∧
    (∀ ms, zenv ipa = ZipOutcome.archive ms →
       (∀ m ∈ ms, strEndsWith m.name mpSuffix = false) →
       extract_mobileprovision_from_ipa zenv fs ipa
         = ([ipa ++ ": No embedded.mobileprovision found"], fs, []) ∧
       processFile zenv denv now fs ipa
         = .ok ([ipa ++ ": No embedded.mobileprovision found"], fs)) := by
  constructor
  · intro msg hz
    have hext : extract_mobileprovision_from_ipa zenv fs ipa
        = ([ipa ++ ": Error extracting - " ++ msg], fs, []) := by
      simp [extract_mobileprovision_from_ipa, hz]
    refine ⟨hext, ?_⟩
    unfold processFile
    rw [if_neg (by simp [hipa1]), if_pos hipa2, hext]
    simp [checkAll]
  · intro ms hz hnone
    have hext : extract_mobileprovision_from_ipa zenv fs ipa
        = ([ipa ++ ": No embedded.mobileprovision found"], fs, []) := by
      simp only [extract_mobileprovision_from_ipa, hz]
      rw [extractLoopE_no_match ms hnone fs []]
      simp
    refine ⟨hext, ?_⟩
    unfold processFile
    rw [if_neg (by simp [hipa1]), if_pos hipa2, hext]
    simp [checkAll]

/-- Witness for C7: both the unreadable-archive and the zero-match cases at
concrete inputs. -/
theorem spec_c7_witness :
    (extract_mobileprovision_from_ipa (fun _ => ZipOutcome.openError "BadZipFile") [] "a.ipa"
       = (["a.ipa" ++ ": Error extracting - " ++ "BadZipFile"], [], []) ∧
     processFile (fun _ => ZipOutcome.openError "BadZipFile")
       (fun _ => DecodeOutcome.calledProcessError "e" false) 0 [] "a.ipa"
       = .ok (["a.ipa" ++ ": Error extracting - " ++ "BadZipFile"], [])) ∧
    (extract_mobileprovision_from_ipa
       (fun _ => ZipOutcome.archive [⟨"Payload/A.app/Info.plist", none⟩]) [] "b.ipa"
       = (["b.ipa" ++ ": No embedded.mobileprovision found"], [], []) ∧
     processFile (fun _ => ZipOutcome.archive [⟨"Payload/A.app/Info.plist", none⟩])
       (fun _ => DecodeOutcome.calledProcessError "e" false) 0 [] "b.ipa"
       = .ok (["b.ipa" ++ ": No embedded.mobileprovision found"], [])) :=
  ⟨(spec_c7_theorem _ _ 0 [] "a.ipa" (by decide) (by decide)).1 "BadZipFile" rfl,
   (spec_c7_theorem _ _ 0 [] "b.ipa" (by decide) (by decide)).2
     [⟨"Payload/A.app/Info.plist", none⟩] rfl (by decide)⟩

/-- C9: the current instant is sampled exactly once (clock index 0) at
process start and never re-sampled per file: two runs of the whole pipeline
whose clocks agree on that one sample — whatever the clocks return at every
later sampling opportunity — produce identical printed lines and final
filesystem state, so verdicts are deterministic in the captured instant and
the decoded documents. -/
theorem spec_c9_theorem (zenv : ZipEnv) (denv : DecodeEnv) (clock clock2 : Nat → Int)
    (files : List String) (fs0 : FS) (h : clock 0 = clock2 0) :
    mainRun zenv denv clock files fs0 = mainRun zenv denv clock2 files fs0 := by
  unfold mainRun
  rw [h]

/-- Witness for C9: a constant clock and a drifting clock that agree at
sample 0 give identical runs. -/
theorem spec_c9_witness :
    mainRun (fun _ => ZipOutcome.archive [])
      (fun _ => DecodeOutcome.success (.good [("ExpirationDate", PlistVal.date 50)]))
      (fun _ => (5 : Int)) ["a.mobileprovision"] [] =
    mainRun (fun _ => ZipOutcome.archive [])
      (fun _ => DecodeOutcome.success (.good [("ExpirationDate", PlistVal.date 50)]))
      (fun n => 5 + Int.ofNat n) ["a.mobileprovision"] [] :=
  spec_c9_theorem _ _ _ _ ["a.mobileprovision"] [] (by decide)

/-- C10: if `ZipFile.extract` raises partway through an archive after at
least one matching member was already extracted and moved, the surrounding
`except` returns the empty list: the already-extracted paths are discarded,
the file's processing prints only the `Error extracting` line (no expiry
check runs for any of the archive's profiles), and the already-extracted
files are still present in the scratch directory. -/
theorem spec_c10_theorem (zenv : ZipEnv) (denv : DecodeEnv) (now : Int) (fs : FS)
    (ipa : String) (ms1 ms2 : List ZMember) (m : ZMember) (msg : String)
    (hz : zenv ipa = ZipOutcome.archive (ms1 ++ m :: ms2))
    (h1 : ∀ x ∈ ms1, strEndsWith x.name mpSuffix = true → x.extractRaises = none)
    (hm : strEndsWith m.name mpSuffix = true)
    (hr : m.extractRaises = some msg)
    (hne : extractedPaths 0 ms1 ≠ [])
    (hipa1 : strEndsWith ipa ".mobileprovision" = false)
    (hipa2 : strEndsWith ipa ".ipa" = true) :
    ∃ fs', extract_mobileprovision_from_ipa zenv fs ipa
        = ([ipa ++ ": Error extracting - " ++ msg], fs', []) ∧
      processFile zenv denv now fs ipa
        = .ok ([ipa ++ ": Error extracting - " ++ msg], fs') ∧
      ∀ p ∈ extractedPaths 0 ms1, fsExists fs' p = true := by
  obtain ⟨fsA, heq, _, hnew⟩ := extractLoopE_strong ms1 h1 fs []
  simp only [List.nil_append, List.length_nil] at heq hnew
  have hloop : extractLoopE fs (ms1 ++ m :: ms2) [] = .error (msg, fsA) := by
    rw [extractLoopE_append, heq]
    simp [extractLoopE, hm, hr]
  have hext : extract_mobileprovision_from_ipa zenv fs ipa
      = ([ipa ++ ": Error extracting - " ++ msg], fsA, []) := by
    simp only [extract_mobileprovision_from_ipa, hz, hloop]
  refine ⟨fsA, hext, ?_, hnew⟩
  unfold processFile
  rw [if_neg (by simp [hipa1]), if_pos hipa2, hext]
  simp [checkAll]

/-- Witness for C10: first member extracted, second raises; the first file
remains in the scratch directory while no check is attempted. -/
theorem spec_c10_witness :
    ∃ fs', extract_mobileprovision_from_ipa
        (fun _ => ZipOutcome.archive [⟨"Payload/A.app/embedded.mobileprovision", none⟩,
          ⟨"Payload/B.app/embedded.mobileprovision", some "BadZipFile"⟩]) [] "a.ipa"
        = (["a.ipa" ++ ": Error extracting - " ++ "BadZipFile"], fs', []) ∧
      processFile
        (fun _ => ZipOutcome.archive [⟨"Payload/A.app/embedded.mobileprovision", none⟩,
          ⟨"Payload/B.app/embedded.mobileprovision", some "BadZipFile"⟩])
        (fun _ => DecodeOutcome.calledProcessError "e" false) 0 [] "a.ipa"
        = .ok (["a.ipa" ++ ": Error extracting - " ++ "BadZipFile"], fs') ∧
      ∀ p ∈ extractedPaths 0 [⟨"Payload/A.app/embedded.mobileprovision", none⟩],
        fsExists fs' p = true :=
  spec_c10_theorem _ _ 0 [] "a.ipa" [⟨"Payload/A.app/embedded.mobileprovision", none⟩] []
    ⟨"Payload/B.app/embedded.mobileprovision", some "BadZipFile"⟩ "BadZipFile"
    rfl (by decide) (by decide) rfl (by decide) (by decide) (by decide)
